import Mathlib

/-!
Verification development for the ScotlandYardAI repository.

The Python sources (heuristic.py, detectives.py, path.py, gui.py, mrx.py,
main.py, fullgamegraph.py) are shallowly embedded below.  Machine floats are
modelled as exact rationals; the only non-finite float values that the code
can produce are plus and minus infinity, which are modelled by small sum
types (an `Option` with `none` standing for an infinite shortest-path
distance, and the types `QBot` / `QTop` standing for floats initialised to
minus / plus infinity in the search loops).  Python dictionaries keyed by
strings are modelled as association lists in insertion order.
-/

/-- Transport mode strings, exactly the literals used by the sources. -/
abbrev Mode := String

/-- A move is a pair of destination station and transport mode, as returned
by every strategy (`Tuple[int, str]` in the sources). -/
abbrev Move := ℕ × Mode

/-- The board graph: station to (mode to neighbour list).
Modelled from the spec: the concrete adjacency table (`engine.boardmap` /
`board.BOARD`) is data of this repository that is not under src/; per the
spec it is a mapping from each station to a mapping from transport mode to
the stations directly reachable by that mode. -/
abbrev Board := List (ℕ × List (Mode × List ℕ))

/-- The player value type. Modelled from the spec: `engine.player.Player` is
not under src/; per the spec it is a value holding a name, a current station
and a ticket inventory, constructed as `Player(tickets, pos, name)`. -/
structure Player where
  name : String
  pos : ℕ
  tickets : List (Mode × ℤ)
deriving DecidableEq, Repr

def taxiM : Mode := "taxi"

def busM : Mode := "bus"

def undergroundM : Mode := "underground"

def riverM : Mode := "river"

def blackM : Mode := "black"

def twoXM : Mode := "2x"

/-- Lookup of `boardmap[n]`; a missing station yields the empty adjacency,
consistent with the closed-graph invariant of the spec. -/
def lookupNode (b : Board) (n : ℕ) : List (Mode × List ℕ) :=
  match b.find? (fun p => p.1 == n) with
  | some p => p.2
  | none => []

/-- Lookup of `boardmap[n].get(t, [])` (equivalently the guarded
`if t in boardmap[n] ... boardmap[n][t]` form used in detectives.py). -/
def nbrs (b : Board) (n : ℕ) (t : Mode) : List ℕ :=
  match (lookupNode b n).find? (fun p => p.1 == t) with
  | some p => p.2
  | none => []

/-- The station set `set(boardmap.keys())`. -/
def allStations (b : Board) : Finset ℕ := (b.map (fun p => p.1)).toFinset

/-- Python list slicing `l[-k:]`: for `k = 0` this is the WHOLE list
(`-0 == 0` in Python), otherwise the last `k` elements (all of them when
`k` exceeds the length). -/
def pySuffix {α : Type} (l : List α) (k : ℕ) : List α :=
  if k = 0 then l else l.drop (l.length - k)

/-- One propagation step: the union over the current candidate set of the
neighbours reachable by transport mode `t`. -/
def expandStep (b : Board) (t : Mode) (S : Finset ℕ) : Finset ℕ :=
  S.biUnion (fun n => (nbrs b n t).toFinset)

/-- Embeds `get_possible_locations` (heuristic.py lines 19-30 and the
identical detectives.py lines 32-43): start from the singleton of the last
known position and expand once per entry of `x_history[-moves_since_reveal:]`
using that entry's transport mode. -/
def get_possible_locations (b : Board) (x_history : List (ℕ × Mode))
    (last_known_pos : ℕ) (moves_since_reveal : ℕ) : Finset ℕ :=
  (pySuffix x_history moves_since_reveal).foldl
    (fun S step => expandStep b step.2 S) {last_known_pos}

/-- The reveal schedule shared by both detective strategies. -/
def reveal_turns : List ℕ := [3, 8, 13, 18, 24]

/-- Embeds `max(i for i in range(len(reveal_turns)) if reveal_turns[i] <= turn)`;
`none` models the `ValueError` raised by `max` on an empty generator. -/
def last_reveal_index (turn : ℕ) : Option ℕ :=
  ((List.range reveal_turns.length).filter
    (fun i => reveal_turns.getD i 0 ≤ turn)).max?

/-- The reveal-turn value `reveal_turns[last_reveal_index]` selected by both
strategies' `play_move`; `none` when no schedule entry is ≤ the turn. -/
def last_reveal_selection (turn : ℕ) : Option ℕ :=
  (last_reveal_index turn).map (fun i => reveal_turns.getD i 0)

/-- Embeds the possible-location computation of both `play_move`s (heuristic.py
lines 93-112, detectives.py lines 231-257): default to all stations; once the
turn counter has reached 3 and history is non-empty, reconstruct from the last
passed reveal turn; a failed schedule lookup or an out-of-range start index
falls back to all stations (the caught `ValueError` / guarded index). -/
def compute_possible (b : Board) (turn : ℕ) (hist : List (ℕ × Mode)) : Finset ℕ :=
  if 3 ≤ turn ∧ hist ≠ [] then
    match last_reveal_selection turn with
    | none => allStations b
    | some rv =>
      if rv - 1 < hist.length then
        get_possible_locations b hist (hist.getD (rv - 1) (0, taxiM)).1
          (hist.length - (rv - 1) - 1)
      else allStations b
  else allStations b

/-! ### Shortest-path distances

Modelled from the spec: `nx.shortest_path(nx.Graph(boardmap), a, c)` computes
an unweighted shortest path over the graph with all transport modes treated
as undirected edges, and the strategies use `len(path) - 1`, with float
infinity when no path exists.  `none` models infinity. -/

/-- Every station mentioned in the board table (keys and neighbour lists). -/
def mentions (b : Board) : List ℕ :=
  b.foldr (fun p acc => p.1 :: p.2.foldr (fun q acc2 => q.2 ++ acc2) acc) []

/-- Undirected adjacency across all transport modes. -/
def adjacentAll (b : Board) (u v : ℕ) : Bool :=
  (lookupNode b u).any (fun p => p.2.contains v) ||
  (lookupNode b v).any (fun p => p.2.contains u)

def neighborsAll (b : Board) (u : ℕ) : List ℕ :=
  (mentions b).filter (fun v => adjacentAll b u v)

/-- Breadth-first search by frontier expansion; fuel bounds the rounds. -/
def bfsAux (b : Board) (target : ℕ) :
    ℕ → Finset ℕ → Finset ℕ → ℕ → Option ℕ
  | 0, _, _, _ => none
  | fuel + 1, frontier, visited, d =>
    if target ∈ frontier then some d
    else
      let nxt := (frontier.biUnion (fun u => (neighborsAll b u).toFinset)) \ visited
      if nxt = ∅ then none else bfsAux b target fuel nxt (visited ∪ nxt) (d + 1)

/-- Modelled from the spec: `get_shortest_path_length` of detectives.py and
the inline `len(nx.shortest_path(...)) - 1` of heuristic.py; `none` is the
float infinity returned when no path exists (the `NetworkXNoPath` branch). -/
def get_shortest_path_length (b : Board) (a c : ℕ) : Option ℕ :=
  bfsAux b c ((mentions b).length + 1) {a} {a} 0

/-- Minimum of two possibly-infinite distances. -/
def infMin : Option ℕ → Option ℕ → Option ℕ
  | none, o => o
  | some a, none => some a
  | some a, some c => some (min a c)

/-- Embeds `min(distance(d.pos, node) for d in detectives)`; `none` for an
empty detective list (where Python `min` would raise) or all-infinite values. -/
def minDetDistance (b : Board) (ds : List Player) (node : ℕ) : Option ℕ :=
  (ds.map (fun d => get_shortest_path_length b d.pos node)).foldr infMin none

/-- Float comparison `d <= k` with `d` possibly infinite. -/
def infLeNat (o : Option ℕ) (k : ℕ) : Bool :=
  match o with
  | none => false
  | some d => d ≤ k

/-- Float comparison between two possibly-infinite distances
(infinity ≤ infinity is true, as for IEEE floats). -/
def infLe : Option ℕ → Option ℕ → Bool
  | _, none => true
  | none, some _ => false
  | some a, some c => a ≤ c

/-- The factor `10.0 / (1.0 + distance)`, which is `0` for an infinite
distance (`10/inf = 0` in float arithmetic). -/
def recipScore (o : Option ℕ) : ℚ :=
  match o with
  | none => 0
  | some d => 10 / (1 + (d : ℚ))

/-! ### Heuristic detective strategy (heuristic.py) -/

/-- The per-candidate-location term of `evaluate_move` (heuristic.py lines
40-59): base score `10/(1+current_distance)`, a 1.5 bonus when this detective
would be at least as close as the closest detective, and a 0.5 penalty when
the destination is occupied by a detective (computed against pre-move
positions). -/
def evalMoveTerm (b : Board) (pos : ℕ) (ds : List Player) (x : ℕ) : ℚ :=
  let minDD := minDetDistance b ds x
  let cur := get_shortest_path_length b pos x
  let s1 := recipScore cur
  let s2 := if infLe cur minDD then s1 * (3 / 2) else s1
  if pos ∈ ds.map (fun d => d.pos) then s2 * (1 / 2) else s2

/-- Embeds `evaluate_move` (heuristic.py lines 32-61): `0.0` for an empty
possible-location set, otherwise the sum of per-location scores divided by
the number of possible locations. -/
def evaluate_move (b : Board) (pos : ℕ) (ds : List Player) (P : Finset ℕ) : ℚ :=
  if P = ∅ then 0 else (∑ x ∈ P, evalMoveTerm b pos ds x) / P.card

/-- Inner loop of move generation: keep each neighbour not occupied by a
detective, paired with the transport mode. -/
def innerMoves (dpos : List ℕ) (t : Mode) : List ℕ → List Move
  | [] => []
  | p :: ps =>
    if p ∈ dpos then innerMoves dpos t ps else (p, t) :: innerMoves dpos t ps

/-- Shared move-generation loop over the ticket inventory.  `skipSpecial`
distinguishes the two variants: detectives.py additionally skips the
non-movement `black` and `2x` ticket kinds. -/
def gvmGo (b : Board) (pos : ℕ) (dpos : List ℕ) (skipSpecial : Bool) :
    List (Mode × ℤ) → List Move
  | [] => []
  | (t, c) :: rest =>
    (if c ≤ 0 ∨ (skipSpecial ∧ (t = blackM ∨ t = twoXM)) then []
     else innerMoves dpos t (nbrs b pos t)) ++ gvmGo b pos dpos skipSpecial rest

/-- Embeds `get_valid_moves` of heuristic.py (lines 63-76): every neighbour
reachable by a mode with a positive ticket count, excluding stations occupied
by players of the given roster. -/
def get_valid_moves_h (b : Board) (det : Player) (ds : List Player) : List Move :=
  gvmGo b det.pos (ds.map (fun d => d.pos)) false det.tickets

/-- Embeds `get_valid_moves` of detectives.py (lines 95-109): as the
heuristic variant but also skipping the `black` and `2x` ticket kinds. -/
def get_valid_moves_s (b : Board) (det : Player) (ds : List Player) : List Move :=
  gvmGo b det.pos (ds.map (fun d => d.pos)) true det.tickets

/-- A float initialised to minus infinity (`best_score = -inf` /
`max_eval = -INFINITY` in the sources). -/
inductive QBot where
  | bot
  | val (q : ℚ)
deriving DecidableEq, Repr

/-- A float initialised to plus infinity (`min_eval = INFINITY`). -/
inductive QTop where
  | top
  | val (q : ℚ)
deriving DecidableEq, Repr

/-- The comparison `score > best` with `best` possibly minus infinity. -/
def qbotLtB : QBot → ℚ → Bool
  | .bot, _ => true
  | .val a, q => a < q

/-- The update `alpha = max(alpha, score)`. -/
def qbotMax : QBot → ℚ → QBot
  | .bot, q => .val q
  | .val a, q => .val (max a q)

/-- The comparison `score < best` with `best` possibly plus infinity. -/
def qtopLtB (q : ℚ) : QTop → Bool
  | .top => true
  | .val a => q < a

/-- The update `beta = min(beta, score)`. -/
def qtopMin : QTop → ℚ → QTop
  | .top, q => .val q
  | .val a, q => .val (min a q)

/-- The pruning test `beta <= alpha`; with `beta` plus infinity or `alpha`
minus infinity it is false (`alpha` never becomes plus infinity in the
embedded searches, whose scores are finite). -/
def leTB : QTop → QBot → Bool
  | .top, _ => false
  | .val _, .bot => false
  | .val q, .val a => q ≤ a

/-- Read off a finite float; the `.bot` case is unreachable in the embedded
code (the best-score accumulator is always updated on the first candidate). -/
def qbotToQ : QBot → ℚ
  | .bot => 0
  | .val q => q

def qtopToQ : QTop → ℚ
  | .top => 0
  | .val q => q

/-- The greedy selection loop of heuristic.py `play_move` (lines 115-122):
keep the first strictly improving move. -/
def argmaxGo (score : Move → ℚ) : List Move → QBot → Option Move → Option Move
  | [], _, best => best
  | m :: rest, acc, best =>
    if qbotLtB acc (score m) then argmaxGo score rest (.val (score m)) (some m)
    else argmaxGo score rest acc best

/-- Embeds `play_move` of heuristic.py (lines 78-124) as a pure function of
the module-level `turn`/`agent` counters.  `pick` models `random.choice`.
Printing and the traversal visualisation are side effects with no bearing on
the returned value and are omitted.  Returns the updated counters and the
chosen move (`none` models Python `None`). -/
def heuristic_play_move (b : Board) (pick : List Move → Move) (turn agent : ℕ)
    (det : Player) (ds : List Player) (hist : List (ℕ × Mode)) :
    ℕ × ℕ × Option Move :=
  let agent2 := (agent + 1) % 5
  let turn2 := if agent2 = 0 then turn + 1 else turn
  let vm := get_valid_moves_h b det ds
  if vm.isEmpty then (turn2, agent2, none)
  else
    let P := compute_possible b turn2 hist
    let best := argmaxGo (fun m => evaluate_move b m.1 ds P) vm .bot none
    (turn2, agent2, some (match best with | some m => m | none => pick vm))

/-! ### Search detective strategy (detectives.py) -/

/-- Embeds the escape-routes count of `calculate_probability` (lines 59-60):
how many of taxi, bus, underground have at least one edge out of the node. -/
def escape_routes (b : Board) (node : ℕ) : ℕ :=
  (([taxiM, busM, undergroundM]).filter (fun t => !(nbrs b node t).isEmpty)).length

/-- Embeds the movement-variety count (lines 64-67): distinct transport modes
among the last three history entries. -/
def transport_variety (hist : List (ℕ × Mode)) : ℕ :=
  ((pySuffix hist 3).map (fun s => s.2)).dedup.length

/-- Embeds `calculate_probability` (detectives.py lines 46-69).  `none`
models the float infinity produced when every detective is infinitely far
from the node (the distance factor `1 + inf/5`); all other factors are
strictly positive, so the product is then infinite. -/
def calculate_probability (b : Board) (node : ℕ) (P : Finset ℕ)
    (ds : List Player) (hist : List (ℕ × Mode)) : Option ℚ :=
  if node ∉ P then some 0
  else
    match minDetDistance b ds node with
    | none => none
    | some m =>
      some ((1 / (P.card : ℚ)) *
        ((1 + (m : ℚ) / 5) *
         ((1 + (escape_routes b node : ℚ) / 3) *
          (if hist ≠ [] then 1 + (transport_variety hist : ℚ) / 3 else 1))))

/-- The unnormalised score as an exact rational; an infinite score (which the
theorems below exclude by hypothesis) is read as `0`. -/
def raw_score (b : Board) (P : Finset ℕ) (ds : List Player)
    (hist : List (ℕ × Mode)) (node : ℕ) : ℚ :=
  (calculate_probability b node P ds hist).getD 0

/-- The sum of the unnormalised scores over the candidate set
(`total_likelihood` of `print_node_probabilities`, detectives.py lines 74-79). -/
def total_raw (b : Board) (P : Finset ℕ) (ds : List Player)
    (hist : List (ℕ × Mode)) : ℚ :=
  ∑ n ∈ P, raw_score b P ds hist n

/-- Embeds the normalisation of `print_node_probabilities` (lines 81-83):
each score is divided by the total when the total is positive, otherwise
left unnormalised.  The printing of the top-10 table is a side effect and is
omitted. -/
def normalized_probability (b : Board) (P : Finset ℕ) (ds : List Player)
    (hist : List (ℕ × Mode)) (node : ℕ) : ℚ :=
  if 0 < total_raw b P ds hist then
    raw_score b P ds hist node / total_raw b P ds hist
  else raw_score b P ds hist node

/-- Embeds the coverage count of `evaluate_position` (lines 127-128): the
size of the union of the taxi, bus and underground neighbour sets. -/
def coverage (b : Board) (pos : ℕ) : ℕ :=
  ((nbrs b pos taxiM).toFinset ∪ (nbrs b pos busM).toFinset ∪
   (nbrs b pos undergroundM).toFinset).card

/-- Embeds the team-coordination test (lines 132-133): some other detective
position within distance 2 of the candidate location. -/
def teamCoord (b : Board) (pos : ℕ) (ds : List Player) (x : ℕ) : Bool :=
  (ds.map (fun d => d.pos)).any
    (fun dp => dp != pos && infLeNat (get_shortest_path_length b dp x) 2)

/-- The per-location term of `evaluate_position` (lines 119-136). -/
def evalPosTerm (b : Board) (pos : ℕ) (ds : List Player) (P : Finset ℕ)
    (hist : List (ℕ × Mode)) (x : ℕ) : ℚ :=
  let prob := (calculate_probability b x P ds hist).getD 0
  let s1 := prob * recipScore (get_shortest_path_length b pos x)
  let s2 := s1 * (1 + (coverage b pos : ℚ) / 20)
  if teamCoord b pos ds x then s2 * (3 / 2) else s2

/-- Embeds `evaluate_position` (detectives.py lines 111-138): `0.0` for an
empty possible-location set, otherwise the (unaveraged) sum of the
per-location scores. -/
def evaluate_position (b : Board) (pos : ℕ) (ds : List Player) (P : Finset ℕ)
    (hist : List (ℕ × Mode)) : ℚ :=
  if P = ∅ then 0 else ∑ x ∈ P, evalPosTerm b pos ds P hist x

/-- Embeds `new_tickets[transport] -= 1` on the ticket dictionary. -/
def decTicket (ts : List (Mode × ℤ)) (mode : Mode) : List (Mode × ℤ) :=
  ts.map (fun p => if p.1 == mode then (p.1, p.2 - 1) else p)

/-- Embeds the roster substitution
`[new_detective if d.name == detective.name else d for d in detectives]`. -/
def substitute (ds : List Player) (nd : Player) (nm : String) : List Player :=
  ds.map (fun d => if d.name == nm then nd else d)

/-- The hypothetical state built for a candidate move (detectives.py lines
158-164): new detective at the destination with the mode's ticket count
decremented, substituted into the roster by name. -/
def childState (det : Player) (ds : List Player) (m : Move) : Player × List Player :=
  let nd : Player := ⟨det.name, m.1, decTicket det.tickets m.2⟩
  (nd, substitute ds nd det.name)

/-- The maximizing loop of `alpha_beta_search` (detectives.py lines 151-186):
per candidate move, build the hypothetical state, score
`0.7 * immediate + 0.3 * future`, track the first strictly-best move, raise
alpha, and break once `beta <= alpha`.  `child` is the recursive call at the
next depth, `eval1` the immediate evaluation. -/
def absMax (child : Player → List Player → QBot → QTop → ℚ)
    (eval1 : ℕ → List Player → ℚ) (det : Player) (ds : List Player) :
    List Move → QBot → QTop → QBot → Option Move → QBot × Option Move
  | [], _, _, maxEval, best => (maxEval, best)
  | m :: rest, alpha, beta, maxEval, best =>
    let st := childState det ds m
    let ev : ℚ := 7 / 10 * eval1 m.1 st.2 + 3 / 10 * child st.1 st.2 alpha beta
    let maxEval2 := if qbotLtB maxEval ev then QBot.val ev else maxEval
    let best2 := if qbotLtB maxEval ev then some m else best
    let alpha2 := qbotMax alpha ev
    if leTB beta alpha2 then (maxEval2, best2)
    else absMax child eval1 det ds rest alpha2 beta maxEval2 best2

/-- The minimizing loop of `alpha_beta_search` (detectives.py lines 188-216),
symmetric to `absMax` with beta lowered and the same break condition. -/
def absMin (child : Player → List Player → QBot → QTop → ℚ)
    (eval1 : ℕ → List Player → ℚ) (det : Player) (ds : List Player) :
    List Move → QBot → QTop → QTop → Option Move → QTop × Option Move
  | [], _, _, minEval, best => (minEval, best)
  | m :: rest, alpha, beta, minEval, best =>
    let st := childState det ds m
    let ev : ℚ := 7 / 10 * eval1 m.1 st.2 + 3 / 10 * child st.1 st.2 alpha beta
    let minEval2 := if qtopLtB ev minEval then QTop.val ev else minEval
    let best2 := if qtopLtB ev minEval then some m else best
    let beta2 := qtopMin beta ev
    if leTB beta2 alpha then (minEval2, best2)
    else absMin child eval1 det ds rest alpha beta2 minEval2 best2

/-- Embeds `alpha_beta_search` (detectives.py lines 141-216).  At depth 0 or
with no candidate moves it evaluates the current position; otherwise it runs
the maximizing or minimizing loop over the SAME move list passed in at the
root (the code never regenerates moves), recursing with the flag flipped.
The first component is the returned float score (finite whenever the loop
runs at least one iteration, which is the case for a non-empty move list).
`absLevel` is one depth level, with `next` the search at the next depth. -/
def absLevel (b : Board) (P : Finset ℕ) (hist : List (ℕ × Mode))
    (next : Player → List Player → List Move → QBot → QTop → Bool → ℚ × Option Move)
    (det : Player) (ds : List Player) (moves : List Move) (alpha : QBot)
    (beta : QTop) (maximizing : Bool) : ℚ × Option Move :=
  if moves.isEmpty then (evaluate_position b det.pos ds P hist, none)
  else if maximizing then
    let r := absMax (fun nd nds a bt => (next nd nds moves a bt false).1)
      (fun p nds => evaluate_position b p nds P hist) det ds moves alpha beta
      QBot.bot none
    (qbotToQ r.1, r.2)
  else
    let r := absMin (fun nd nds a bt => (next nd nds moves a bt true).1)
      (fun p nds => evaluate_position b p nds P hist) det ds moves alpha beta
      QTop.top none
    (qtopToQ r.1, r.2)

/-- The full `alpha_beta_search` of detectives.py as a function of the depth,
built by recursion on the depth so that it evaluates by kernel reduction. -/
def alpha_beta_search (b : Board) (P : Finset ℕ) (hist : List (ℕ × Mode))
    (depth : ℕ) :
    Player → List Player → List Move → QBot → QTop → Bool → ℚ × Option Move :=
  Nat.rec
    (motive := fun _ =>
      Player → List Player → List Move → QBot → QTop → Bool → ℚ × Option Move)
    (fun det ds _ _ _ _ => (evaluate_position b det.pos ds P hist, none))
    (fun _ ih => absLevel b P hist (fun nd nds mv a bt mx => ih nd nds mv a bt mx))
    depth

/-- Maximizing loop of the exhaustive reference search: identical scoring,
no alpha/beta and no break. -/
def mmMax (child : Player → List Player → ℚ) (eval1 : ℕ → List Player → ℚ)
    (det : Player) (ds : List Player) :
    List Move → QBot → Option Move → QBot × Option Move
  | [], maxEval, best => (maxEval, best)
  | m :: rest, maxEval, best =>
    let st := childState det ds m
    let ev : ℚ := 7 / 10 * eval1 m.1 st.2 + 3 / 10 * child st.1 st.2
    mmMax child eval1 det ds rest
      (if qbotLtB maxEval ev then QBot.val ev else maxEval)
      (if qbotLtB maxEval ev then some m else best)

/-- Minimizing loop of the exhaustive reference search. -/
def mmMin (child : Player → List Player → ℚ) (eval1 : ℕ → List Player → ℚ)
    (det : Player) (ds : List Player) :
    List Move → QTop → Option Move → QTop × Option Move
  | [], minEval, best => (minEval, best)
  | m :: rest, minEval, best =>
    let st := childState det ds m
    let ev : ℚ := 7 / 10 * eval1 m.1 st.2 + 3 / 10 * child st.1 st.2
    mmMin child eval1 det ds rest
      (if qtopLtB ev minEval then QTop.val ev else minEval)
      (if qtopLtB ev minEval then some m else best)

/-- Modelled from the spec's words (testable property 5): the exhaustive
(unpruned) minimax evaluation of the identical
`0.7 * immediate + 0.3 * future` scoring recursion over the same fixed move
list, used as the reference point for the alpha-beta refinement claim. -/
def mmLevel (b : Board) (P : Finset ℕ) (hist : List (ℕ × Mode))
    (next : Player → List Player → List Move → Bool → ℚ × Option Move)
    (det : Player) (ds : List Player) (moves : List Move) (maximizing : Bool) :
    ℚ × Option Move :=
  if moves.isEmpty then (evaluate_position b det.pos ds P hist, none)
  else if maximizing then
    let r := mmMax (fun nd nds => (next nd nds moves false).1)
      (fun p nds => evaluate_position b p nds P hist) det ds moves QBot.bot none
    (qbotToQ r.1, r.2)
  else
    let r := mmMin (fun nd nds => (next nd nds moves true).1)
      (fun p nds => evaluate_position b p nds P hist) det ds moves QTop.top none
    (qtopToQ r.1, r.2)

/-- The exhaustive reference search as a function of the depth. -/
def minimax_exhaustive (b : Board) (P : Finset ℕ) (hist : List (ℕ × Mode))
    (depth : ℕ) :
    Player → List Player → List Move → Bool → ℚ × Option Move :=
  Nat.rec
    (motive := fun _ => Player → List Player → List Move → Bool → ℚ × Option Move)
    (fun det ds _ _ => (evaluate_position b det.pos ds P hist, none))
    (fun _ ih => mmLevel b P hist (fun nd nds mv mx => ih nd nds mv mx))
    depth

/-- Embeds `play_move` of detectives.py (lines 219-277) as a pure function of
the `turn`/`agent` counters; `pick` models `random.choice`, printing and the
visualisation are omitted.  The search is invoked with depth `MAX_DEPTH = 2`,
alpha minus infinity, beta plus infinity, maximizing. -/
def detectives_play_move (b : Board) (pick : List Move → Move) (turn agent : ℕ)
    (det : Player) (ds : List Player) (hist : List (ℕ × Mode)) :
    ℕ × ℕ × Option Move :=
  let agent2 := (agent + 1) % 5
  let turn2 := if agent2 = 0 then turn + 1 else turn
  let vm := get_valid_moves_s b det ds
  if vm.isEmpty then (turn2, agent2, none)
  else
    let P := compute_possible b turn2 hist
    let r := alpha_beta_search b P hist 2 det ds vm QBot.bot QTop.top true
    (turn2, agent2, some (match r.2 with | some m => m | none => pick vm))

/-! ### Traversal visualizer (path.py) -/

/-- The neighbour loop of `explore` (path.py lines 28-31), with the evolving
visited set threaded through; `step` is the recursive exploration of a
not-yet-visited neighbour. -/
def exploreFold (step : ℕ → Finset ℕ → Finset ℕ) : List ℕ → Finset ℕ → Finset ℕ
  | [], v => v
  | nb :: l, v => exploreFold step l (if nb ∈ v then v else step nb (insert nb v))

/-- Embeds the recursive `explore` of `visualize_traversal_path` (path.py
lines 22-35): stop at depth 0 or an exhausted mode sequence; otherwise, for
every neighbour by the next mode that is not yet visited, mark it visited and
recurse with one less depth and the remaining mode sequence.  Returns the
final visited set. -/
def explore (b : Board) : ℕ → ℕ → List Mode → Finset ℕ → Finset ℕ
  | 0, _, _, v => v
  | d + 1, cur, path, v =>
    match path with
    | [] => v
    | t :: rest => exploreFold (fun nb vis => explore b d nb rest vis) (nbrs b cur t) v

/-- The exact chronological propagation: all stations reachable from `S` by
following the mode sequence in order for at most `min(depth, length)` steps
(the union of the 0-step through min-step propagation sets). -/
def reachWithin (b : Board) : ℕ → List Mode → Finset ℕ → Finset ℕ
  | 0, _, S => S
  | _ + 1, [], S => S
  | d + 1, t :: rest, S => S ∪ reachWithin b d rest (expandStep b t S)

/-! ### GUI window (gui.py) -/

/-- The canvas state touched by `update_ui`: the last recorded canvas size,
the size the background image was last scaled to, and the coordinates of the
player token rectangles and text labels (the mutable canvas items). -/
structure GuiState where
  oldSize : ℤ × ℤ
  imgSize : ℤ × ℤ
  rects : List (ℚ × ℚ × ℚ × ℚ)
  txts : List (ℚ × ℚ)
deriving DecidableEq, Repr

def UNSCALED_RECT_SIZE : ℚ := 8 / 1000

/-- Embeds `update_ui` (gui.py lines 62-81): the background image is rescaled
only when the canvas dimensions differ from the last recorded size; the token
rectangles and labels are then recomputed unconditionally for every player,
the rectangle spanning `(x + w*R, y + w*R)` to `(x - w*R, y - w*R)` with
`x = locs(pos).1 * width`, `y = locs(pos).2 * height`, `R = UNSCALED_RECT_SIZE`. -/
def update_ui (st : GuiState) (locs : ℕ → ℚ × ℚ) (players : List Player)
    (width height : ℤ) : GuiState :=
  let resized :=
    if st.oldSize ≠ (width, height) then
      { st with oldSize := (width, height), imgSize := (width, height) }
    else st
  let w : ℚ := (width : ℚ)
  let h : ℚ := (height : ℚ)
  { resized with
    rects := players.map (fun p =>
      let x := (locs p.pos).1 * w
      let y := (locs p.pos).2 * h
      (x + w * UNSCALED_RECT_SIZE, y + w * UNSCALED_RECT_SIZE,
       x - w * UNSCALED_RECT_SIZE, y - w * UNSCALED_RECT_SIZE)),
    txts := players.map (fun p => ((locs p.pos).1 * w, (locs p.pos).2 * h)) }

/-! ### Ticket bookkeeping for move sequences -/

/-- Applying a move to a player: new station, one ticket of the used mode
consumed (the update performed by the engine per the spec, and by the search
when building hypothetical states). -/
def apply_move (p : Player) (m : Move) : Player :=
  ⟨p.name, m.1, decTicket p.tickets m.2⟩

/-- All ticket counts are non-negative. -/
abbrev ticketsNonneg (p : Player) : Prop := ∀ e ∈ p.tickets, 0 ≤ e.2

/-- Apply a sequence of moves, checking at each step that the move is one
generated by `gen` from the current player state; `none` if some move is not. -/
def applySeqChecked (gen : Player → List Move) : Player → List Move → Option Player
  | p, [] => some p
  | p, m :: rest =>
    if m ∈ gen p then applySeqChecked gen (apply_move p m) rest else none

/-- The per-move combined score `0.7 * immediate + 0.3 * future` examined by
the alpha-beta loops, as a named function (used to state loop equations). -/
def absStepVal (child : Player → List Player → QBot → QTop → ℚ)
    (eval1 : ℕ → List Player → ℚ) (det : Player) (ds : List Player)
    (m : Move) (alpha : QBot) (beta : QTop) : ℚ :=
  7 / 10 * eval1 m.1 (childState det ds m).2 +
    3 / 10 * child (childState det ds m).1 (childState det ds m).2 alpha beta

/-- The per-move combined score examined by the exhaustive loops. -/
def mmStepVal (child : Player → List Player → ℚ) (eval1 : ℕ → List Player → ℚ)
    (det : Player) (ds : List Player) (m : Move) : ℚ :=
  7 / 10 * eval1 m.1 (childState det ds m).2 +
    3 / 10 * child (childState det ds m).1 (childState det ds m).2

/-- Order on minus-infinity-extended rationals, used to state the
alpha-beta refinement bound. -/
def qbotLe : QBot → QBot → Prop
  | .bot, _ => True
  | .val _, .bot => False
  | .val a, .val c => a ≤ c

/-- Order on plus-infinity-extended rationals. -/
def qtopLe : QTop → QTop → Prop
  | _, .top => True
  | .top, .val _ => False
  | .val a, .val c => a ≤ c

/-! ### Concrete fixtures used by closed theorems and witnesses -/

/-- Three-station chain: 1 -taxi- 2 -bus- 3. -/
def chainBoard : Board :=
  [(1, [(taxiM, [2])]), (2, [(taxiM, [1]), (busM, [3])]), (3, [(busM, [2])])]

/-- Four-station taxi path 1 - 2 - 3 - 4. -/
def pathBoard : Board :=
  [(1, [(taxiM, [2])]), (2, [(taxiM, [1, 3])]), (3, [(taxiM, [2, 4])]),
   (4, [(taxiM, [3])])]

def detA : Player := ⟨"A", 3, [(taxiM, 10)]⟩

def movesC2 : List Move := [(2, taxiM), (3, taxiM), (1, taxiM), (4, taxiM)]

/-- Directed taxi adjacency where station 4 is reachable only at the second
step, through station 3 which is already visited at the first step. -/
def branchBoard : Board :=
  [(1, [(taxiM, [2, 3])]), (2, [(taxiM, [3])]), (3, [(taxiM, [4])]),
   (4, [(taxiM, ([] : List ℕ))])]

def occBoard : Board :=
  [(1, [(taxiM, [2, 3])]), (2, [(taxiM, [1])]), (3, [(taxiM, [1])])]

def mrX : Player := ⟨"X", 2, []⟩

def detD : Player := ⟨"D", 1, [(taxiM, 1)]⟩

def probeDet : Player := ⟨"D", 1, ([] : List (Mode × ℤ))⟩

def gstate0 : GuiState := ⟨(100, 100), (100, 100), [], []⟩

def locsHalf : ℕ → ℚ × ℚ := fun _ => (1 / 2, 1 / 2)

def plX : Player := ⟨"X", 1, []⟩

def pickHead : List Move → Move := fun l => l.headD (0, taxiM)

/-! ### Claim C1 -/

/-- Claim C1 (possible-location reconstruction).  On the chain board
1 -taxi- 2 -bus- 3: two elapsed moves over history [(_, taxi), (_, bus)]
from known station 1 yield exactly the set containing 3, one elapsed move over
[(_, taxi)] yields exactly the set with 2, and zero elapsed moves with an EMPTY
history yield the singleton of the known station.  However, with zero elapsed
moves and a NON-EMPTY history the code expands over the entire history
(Python slicing: `x_history[-0:]` is the whole list), so from known station 2
it returns the set with 1 instead of the claimed singleton of 2 — the failing
input of the recorded code bug. -/
theorem claim_C1_reconstruction :
    get_possible_locations chainBoard [(2, taxiM), (3, busM)] 1 2 = {3} ∧
    get_possible_locations chainBoard [(2, taxiM)] 1 1 = {2} ∧
    get_possible_locations chainBoard ([] : List (ℕ × Mode)) 1 0 = {1} ∧
    get_possible_locations chainBoard [(2, taxiM)] 2 0 = {1} ∧
    get_possible_locations chainBoard [(2, taxiM)] 2 0 ≠ {2} := by
  refine ⟨by decide, by decide, by decide, by decide, by decide⟩

/-! ### Claim C7 -/

/-- Claim C7 (reveal-turn selection).  For turn counter values 1 and 2 the
possible-location set of `play_move` defaults to the full board (no schedule
entry is ≤ the turn), and the reveal turn selected from the schedule
[3, 8, 13, 18, 24] at turns 1, 2, 3, 7, 8, 12, 24, 25 is respectively
none, none, 3, 3, 8, 8, 24, 24. -/
theorem claim_C7_reveal_selection :
    ∀ (b : Board) (hist : List (ℕ × Mode)),
      compute_possible b 1 hist = allStations b ∧
      compute_possible b 2 hist = allStations b ∧
      last_reveal_selection 1 = none ∧
      last_reveal_selection 2 = none ∧
      last_reveal_selection 3 = some 3 ∧
      last_reveal_selection 7 = some 3 ∧
      last_reveal_selection 8 = some 8 ∧
      last_reveal_selection 12 = some 8 ∧
      last_reveal_selection 24 = some 24 ∧
      last_reveal_selection 25 = some 24 := by
  intro b hist
  have h1 : compute_possible b 1 hist = allStations b := by
    rw [compute_possible, if_neg]
    rintro ⟨h3, _⟩
    omega
  have h2 : compute_possible b 2 hist = allStations b := by
    rw [compute_possible, if_neg]
    rintro ⟨h3, _⟩
    omega
  exact ⟨h1, h2, by decide, by decide, by decide, by decide, by decide,
    by decide, by decide, by decide⟩

/-! ### Claim C2, counterexample -/

/-- Claim C2 is refuted at a concrete input: on the four-station path board
with a single detective, possible set the singleton of station 1, empty
history and four candidate moves, the depth-2 alpha-beta search returns
combined score 889/75 while the exhaustive unpruned minimax over the same
move list returns 287/25 = 861/75 (a beta cutoff truncates the minimizing
child of the third move, inflating its future component). -/
theorem claim_C2_counterexample :
    (alpha_beta_search pathBoard {1} [] 2 detA [detA] movesC2
        QBot.bot QTop.top true).1 ≠
      (minimax_exhaustive pathBoard {1} [] 2 detA [detA] movesC2 true).1 := by
  with_unfolding_all decide

/-! ### Claim C8, counterexample -/

/-- Claim C8 is refuted at a concrete input: on a board where station 4 is
reachable from start 1 in exactly two taxi steps (1 to 2 to 3? no: 1 to 2,
2 to 3, 3 to 4 with 3 also a direct neighbour of 1), station 4 belongs to the
exact two-step propagation but `explore` never visits it, because station 3 is
first reached (and marked visited) at step two through station 2, so its later
step-one expansion is skipped.  The visited set is therefore NOT a superset of
the exact propagation. -/
theorem claim_C8_counterexample :
    4 ∈ reachWithin branchBoard 2 [taxiM, taxiM] {1} ∧
    4 ∉ explore branchBoard 2 1 [taxiM, taxiM] {1} := by
  refine ⟨by decide, by decide⟩

/-! ### Claim C5, counterexample -/

/-- Claim C5 is refuted at a concrete input: on a board where detective D at
station 1 has neighbour 2 occupied ONLY by Mr. X (who is in the roster passed
to `get_valid_moves`, index 0, as the spec's engine passes the full player
list) and D holds a taxi ticket, both variants of `get_valid_moves` exclude
station 2: the occupancy filter uses the positions of every roster member,
Mr. X included. -/
theorem claim_C5_counterexample :
    2 ∈ nbrs occBoard detD.pos taxiM ∧
    (taxiM, (1 : ℤ)) ∈ detD.tickets ∧
    mrX.pos = 2 ∧ detD.pos ≠ 2 ∧
    (2, taxiM) ∉ get_valid_moves_h occBoard detD [mrX, detD] ∧
    (2, taxiM) ∉ get_valid_moves_s occBoard detD [mrX, detD] := by
  refine ⟨by decide, by decide, by decide, by decide, by decide, by decide⟩

/-! ### Claim C9, counterexample -/

/-- Claim C9 is refuted at a concrete input: with the last recorded canvas
size equal to the event's dimensions (100, 100), `update_ui` still recomputes
the token placement (the stored rectangle list changes), because only the
background-image rescale is guarded by the size check. -/
theorem claim_C9_counterexample :
    gstate0.oldSize = (100, 100) ∧
    (update_ui gstate0 locsHalf [plX] 100 100).rects ≠ gstate0.rects := by
  refine ⟨by decide, by decide⟩

/-! ### Helper lemmas on move generation -/

lemma mem_innerMoves {dpos : List ℕ} {t : Mode} :
    ∀ {l : List ℕ} {m : Move},
      m ∈ innerMoves dpos t l ↔ m.1 ∈ l ∧ m.1 ∉ dpos ∧ m.2 = t := by
  intro l
  induction l with
  | nil => intro m; simp [innerMoves]
  | cons p ps ih =>
    intro m
    by_cases hp : p ∈ dpos
    · rw [innerMoves, if_pos hp]
      rw [ih]
      constructor
      · rintro ⟨h1, h2, h3⟩
        exact ⟨List.mem_cons_of_mem _ h1, h2, h3⟩
      · rintro ⟨h1, h2, h3⟩
        rcases List.mem_cons.mp h1 with heq | hmem
        · exact absurd (heq ▸ hp) h2
        · exact ⟨hmem, h2, h3⟩
    · rw [innerMoves, if_neg hp]
      constructor
      · intro hm
        rcases List.mem_cons.mp hm with heq | hmem
        · subst heq
          exact ⟨List.mem_cons_self _ _, hp, rfl⟩
        · obtain ⟨h1, h2, h3⟩ := ih.mp hmem
          exact ⟨List.mem_cons_of_mem _ h1, h2, h3⟩
      · rintro ⟨h1, h2, h3⟩
        rcases List.mem_cons.mp h1 with heq | hmem
        · obtain ⟨m1, m2⟩ := m
          simp only at heq h3
          subst heq
          subst h3
          exact List.mem_cons_self _ _
        · exact List.mem_cons_of_mem _ (ih.mpr ⟨hmem, h2, h3⟩)

lemma mem_gvmGo {b : Board} {pos : ℕ} {dpos : List ℕ} {sk : Bool} :
    ∀ {ts : List (Mode × ℤ)} {m : Move},
      m ∈ gvmGo b pos dpos sk ts ↔
        ∃ t c, (t, c) ∈ ts ∧
          ¬(c ≤ 0 ∨ (sk = true ∧ (t = blackM ∨ t = twoXM))) ∧
          m.1 ∈ nbrs b pos t ∧ m.1 ∉ dpos ∧ m.2 = t := by
  intro ts
  induction ts with
  | nil => intro m; simp [gvmGo]
  | cons tc rest ih =>
    intro m
    obtain ⟨t, c⟩ := tc
    by_cases hcond : c ≤ 0 ∨ (sk = true ∧ (t = blackM ∨ t = twoXM))
    · rw [gvmGo, if_pos hcond, List.nil_append, ih]
      constructor
      · rintro ⟨t2, c2, hmem, hok, h1, h2, h3⟩
        exact ⟨t2, c2, List.mem_cons_of_mem _ hmem, hok, h1, h2, h3⟩
      · rintro ⟨t2, c2, hmem, hok, h1, h2, h3⟩
        rcases List.mem_cons.mp hmem with heq | hmem2
        · obtain ⟨e1, e2⟩ := Prod.mk.injEq .. ▸ heq
          exact absurd (e1 ▸ e2 ▸ hcond) hok
        · exact ⟨t2, c2, hmem2, hok, h1, h2, h3⟩
    · rw [gvmGo, if_neg hcond, List.mem_append, ih]
      constructor
      · rintro (hin | ⟨t2, c2, hmem, hok, h1, h2, h3⟩)
        · obtain ⟨h1, h2, h3⟩ := mem_innerMoves.mp hin
          exact ⟨t, c, List.mem_cons_self _ _, hcond, h1, h2, h3⟩
        · exact ⟨t2, c2, List.mem_cons_of_mem _ hmem, hok, h1, h2, h3⟩
      · rintro ⟨t2, c2, hmem, hok, h1, h2, h3⟩
        rcases List.mem_cons.mp hmem with heq | hmem2
        · obtain ⟨e1, e2⟩ := Prod.mk.injEq .. ▸ heq
          subst e1
          exact Or.inl (mem_innerMoves.mpr ⟨h1, h2, h3⟩)
        · exact Or.inr ⟨t2, c2, hmem2, hok, h1, h2, h3⟩

/-! ### Claim C5, amended characterization -/

lemma mem_get_valid_moves_h {b : Board} {det : Player} {ds : List Player}
    {m : Move} :
    m ∈ get_valid_moves_h b det ds ↔
      ∃ c, (m.2, c) ∈ det.tickets ∧ 0 < c ∧
        m.1 ∈ nbrs b det.pos m.2 ∧ m.1 ∉ ds.map (fun d => d.pos) := by
  rw [get_valid_moves_h, mem_gvmGo]
  constructor
  · rintro ⟨t, c, hmem, hok, h1, h2, h3⟩
    push_neg at hok
    exact ⟨c, h3 ▸ hmem, by omega, h3 ▸ h1, h2⟩
  · rintro ⟨c, hmem, hc, h1, h2⟩
    exact ⟨m.2, c, hmem, by simp; omega, h1, h2, rfl⟩

lemma mem_get_valid_moves_s {b : Board} {det : Player} {ds : List Player}
    {m : Move} :
    m ∈ get_valid_moves_s b det ds ↔
      ∃ c, (m.2, c) ∈ det.tickets ∧ 0 < c ∧ m.2 ≠ blackM ∧ m.2 ≠ twoXM ∧
        m.1 ∈ nbrs b det.pos m.2 ∧ m.1 ∉ ds.map (fun d => d.pos) := by
  rw [get_valid_moves_s, mem_gvmGo]
  constructor
  · rintro ⟨t, c, hmem, hok, h1, h2, h3⟩
    subst h3
    push_neg at hok
    obtain ⟨hc, hbx⟩ := hok
    obtain ⟨hb1, hb2⟩ := hbx rfl
    exact ⟨c, hmem, by omega, hb1, hb2, h1, h2⟩
  · rintro ⟨c, hmem, hc, hb1, hb2, h1, h2⟩
    refine ⟨m.2, c, hmem, ?_, h1, h2, rfl⟩
    push_neg
    exact ⟨by omega, fun _ => by tauto⟩

/-- Claim C5, amended as the counterexample forces: `get_valid_moves` (both
variants) excludes exactly the stations occupied by SOME player of the roster
it is given — Mr. X's included whenever he is in that roster, as he is when
the engine passes the full player list — and includes every neighbour (by a
positively-ticketed mode) occupied by no roster player. -/
theorem claim_C5_characterization :
    ∀ (b : Board) (det : Player) (ds : List Player) (m : Move),
      (m ∈ get_valid_moves_h b det ds ↔
        ∃ c, (m.2, c) ∈ det.tickets ∧ 0 < c ∧
          m.1 ∈ nbrs b det.pos m.2 ∧ m.1 ∉ ds.map (fun d => d.pos)) ∧
      (m ∈ get_valid_moves_s b det ds ↔
        ∃ c, (m.2, c) ∈ det.tickets ∧ 0 < c ∧ m.2 ≠ blackM ∧ m.2 ≠ twoXM ∧
          m.1 ∈ nbrs b det.pos m.2 ∧ m.1 ∉ ds.map (fun d => d.pos)) := by
  intro b det ds m
  exact ⟨mem_get_valid_moves_h, mem_get_valid_moves_s⟩

/-! ### Helper lemmas on ticket bookkeeping -/

lemma nodup_keys_unique {ts : List (Mode × ℤ)} (hn : (ts.map Prod.fst).Nodup) :
    ∀ {p q : Mode × ℤ}, p ∈ ts → q ∈ ts → p.1 = q.1 → p = q := by
  induction ts with
  | nil => intro p q hp; simp at hp
  | cons a rest ih =>
    intro p q hp hq heq
    rw [List.map_cons, List.nodup_cons] at hn
    rcases List.mem_cons.mp hp with hp1 | hp2 <;>
      rcases List.mem_cons.mp hq with hq1 | hq2
    · rw [hp1, hq1]
    · subst hp1
      exact absurd (heq ▸ List.mem_map_of_mem Prod.fst hq2) hn.1
    · subst hq1
      exact absurd (heq ▸ List.mem_map_of_mem Prod.fst hp2) hn.1
    · exact ih hn.2 hp2 hq2 heq

lemma decTicket_keys (ts : List (Mode × ℤ)) (mode : Mode) :
    (decTicket ts mode).map Prod.fst = ts.map Prod.fst := by
  induction ts with
  | nil => rfl
  | cons a rest ih =>
    show ((if a.1 == mode then (a.1, a.2 - 1) else a) ::
        decTicket rest mode).map Prod.fst = (a :: rest).map Prod.fst
    rw [List.map_cons, List.map_cons, ih]
    congr 1
    by_cases h : a.1 == mode
    · rw [if_pos h]
    · rw [if_neg h]

lemma decTicket_nonneg {ts : List (Mode × ℤ)} {mode : Mode} {c : ℤ}
    (hn : (ts.map Prod.fst).Nodup) (hmem : (mode, c) ∈ ts) (hc : 0 < c)
    (hall : ∀ e ∈ ts, 0 ≤ e.2) :
    ∀ e ∈ decTicket ts mode, 0 ≤ e.2 := by
  intro e he
  rw [decTicket, List.mem_map] at he
  obtain ⟨p, hp, hpe⟩ := he
  by_cases hcase : p.1 == mode
  · rw [if_pos hcase] at hpe
    have hkey : p.1 = mode := by
      exact eq_of_beq hcase
    have : p = (mode, c) := nodup_keys_unique hn hp hmem (by rw [hkey])
    rw [← hpe]
    simp only
    rw [this]
    omega
  · rw [if_neg hcase] at hpe
    exact hpe ▸ hall p hp

lemma applySeq_invariant (gen : Player → List Move)
    (hgen : ∀ p m, m ∈ gen p → ∃ c, (m.2, c) ∈ p.tickets ∧ 0 < c) :
    ∀ (ms : List Move) (p q : Player), (p.tickets.map Prod.fst).Nodup →
      ticketsNonneg p → applySeqChecked gen p ms = some q →
      (q.tickets.map Prod.fst).Nodup ∧ ticketsNonneg q := by
  intro ms
  induction ms with
  | nil =>
    intro p q hn hnn happ
    rw [applySeqChecked] at happ
    obtain rfl := Option.some.injEq .. ▸ happ
    exact ⟨hn, hnn⟩
  | cons m rest ih =>
    intro p q hn hnn happ
    rw [applySeqChecked] at happ
    by_cases hm : m ∈ gen p
    · rw [if_pos hm] at happ
      obtain ⟨c, hcm, hc⟩ := hgen p m hm
      refine ih (apply_move p m) q ?_ ?_ happ
      · show ((decTicket p.tickets m.2).map Prod.fst).Nodup
        rw [decTicket_keys]
        exact hn
      · intro e he
        exact decTicket_nonneg hn hcm hc hnn e he
    · rw [if_neg hm] at happ
      exact absurd happ (by simp)

/-! ### Claim C4 -/

/-- Claim C4 (ticket-count invariant).  Every move produced by either
variant of `get_valid_moves` uses a mode whose ticket count is strictly
positive in the detective's inventory, and applying any checked sequence of
generated moves — each decrementing the used mode's count by one — preserves
non-negativity of every ticket count (ticket keys are unique, as they are for
a Python dict). -/
theorem claim_C4_ticket_invariant :
    ∀ (b : Board) (ds : List Player) (p : Player),
      (∀ m ∈ get_valid_moves_h b p ds, ∃ c, (m.2, c) ∈ p.tickets ∧ 0 < c) ∧
      (∀ m ∈ get_valid_moves_s b p ds, ∃ c, (m.2, c) ∈ p.tickets ∧ 0 < c) ∧
      (∀ (ms : List Move) (q : Player), (p.tickets.map Prod.fst).Nodup →
        ticketsNonneg p →
        applySeqChecked (fun r => get_valid_moves_h b r ds) p ms = some q →
        ticketsNonneg q) ∧
      (∀ (ms : List Move) (q : Player), (p.tickets.map Prod.fst).Nodup →
        ticketsNonneg p →
        applySeqChecked (fun r => get_valid_moves_s b r ds) p ms = some q →
        ticketsNonneg q) := by
  intro b ds p
  have hgen1 : ∀ (r : Player) m, m ∈ get_valid_moves_h b r ds →
      ∃ c, (m.2, c) ∈ r.tickets ∧ 0 < c := by
    intro r m hm
    obtain ⟨c, hmem, hc, _⟩ := mem_get_valid_moves_h.mp hm
    exact ⟨c, hmem, hc⟩
  have hgen2 : ∀ (r : Player) m, m ∈ get_valid_moves_s b r ds →
      ∃ c, (m.2, c) ∈ r.tickets ∧ 0 < c := by
    intro r m hm
    obtain ⟨c, hmem, hc, _⟩ := mem_get_valid_moves_s.mp hm
    exact ⟨c, hmem, hc⟩
  refine ⟨hgen1 p, hgen2 p, ?_, ?_⟩
  · intro ms q hn hnn happ
    exact (applySeq_invariant _ hgen1 ms p q hn hnn happ).2
  · intro ms q hn hnn happ
    exact (applySeq_invariant _ hgen2 ms p q hn hnn happ).2

/-- Witness for claim C4 at a concrete input: detective D at station 1 of
the chain board with one taxi ticket; the one-move sequence to station 2 is
generated and leaves the taxi count at exactly 0. -/
theorem claim_C4_witness :
    ((detD.tickets.map Prod.fst).Nodup ∧ ticketsNonneg detD) ∧
      ticketsNonneg (⟨"D", 2, [(taxiM, 0)]⟩ : Player) :=
  ⟨⟨by decide, by decide⟩,
    (claim_C4_ticket_invariant chainBoard [] detD).2.2.1 [(2, taxiM)]
      ⟨"D", 2, [(taxiM, 0)]⟩ (by decide) (by decide) (by decide)⟩

/-! ### Claim C10 -/

/-- Claim C10 (empty possible-location set handled totally).  The heuristic
evaluator returns exactly 0 on the empty possible-location set (the early
return precedes the division), and on every non-empty set the returned value
times the set's size recovers the score sum — i.e. the division that follows
the guard is by the non-zero cardinality, so the division-by-zero branch is
unreachable and the function is total. -/
theorem claim_C10_empty_total :
    ∀ (b : Board) (pos : ℕ) (ds : List Player),
      evaluate_move b pos ds ∅ = 0 ∧
      (∀ P : Finset ℕ, P.Nonempty →
        evaluate_move b pos ds P * P.card = ∑ x ∈ P, evalMoveTerm b pos ds x) := by
  intro b pos ds
  constructor
  · rw [evaluate_move, if_pos rfl]
  · intro P hP
    have hne : P ≠ ∅ := Finset.nonempty_iff_ne_empty.mp hP
    have hcard : (P.card : ℚ) ≠ 0 := by
      have := Finset.card_pos.mpr hP
      exact_mod_cast Nat.pos_iff_ne_zero.mp this
    rw [evaluate_move, if_neg hne, div_mul_cancel₀ _ hcard]

/-- Witness for claim C10: the singleton set at station 1 of the chain board. -/
theorem claim_C10_witness :
    (({1} : Finset ℕ).Nonempty) ∧
      evaluate_move chainBoard 1 [] {1} * ({1} : Finset ℕ).card =
        ∑ x ∈ ({1} : Finset ℕ), evalMoveTerm chainBoard 1 [] x :=
  ⟨by decide, (claim_C10_empty_total chainBoard 1 []).2 {1} (by decide)⟩

/-! ### Claim C9, amended -/

lemma forall₂_map_self {α β : Type} (f : α → β) (pred : β → α → Prop)
    (hyp : ∀ a, pred (f a) a) : ∀ l : List α, List.Forall₂ pred (l.map f) l := by
  intro l
  induction l with
  | nil => simp
  | cons a t ih => exact List.Forall₂.cons (hyp a) ih

/-- Claim C9, amended as the counterexample forces: on EVERY `update_ui`
call — whether or not the event's dimensions differ from the last recorded
canvas size — each player's token rectangle is recomputed, centred at
(x·W, y·H) with half-extent `0.008·W` in both axes (the width is used for the
vertical extent as well); only the background-image rescale is skipped when
the dimensions are unchanged. -/
theorem claim_C9_token_placement :
    ∀ (st : GuiState) (locs : ℕ → ℚ × ℚ) (players : List Player) (w h : ℤ),
      List.Forall₂ (fun (r : ℚ × ℚ × ℚ × ℚ) (p : Player) =>
          r.1 + r.2.2.1 = 2 * ((locs p.pos).1 * (w : ℚ)) ∧
          r.2.1 + r.2.2.2 = 2 * ((locs p.pos).2 * (h : ℚ)) ∧
          r.1 - r.2.2.1 = 2 * ((w : ℚ) * UNSCALED_RECT_SIZE) ∧
          r.2.1 - r.2.2.2 = 2 * ((w : ℚ) * UNSCALED_RECT_SIZE))
        (update_ui st locs players w h).rects players ∧
      (update_ui st locs players w h).imgSize =
        (if st.oldSize = (w, h) then st.imgSize else (w, h)) := by
  intro st locs players w h
  constructor
  · apply forall₂_map_self
    intro p
    refine ⟨by ring, by ring, by ring, by ring⟩
  · by_cases hsz : st.oldSize = (w, h)
    · rw [if_pos hsz]
      show (if st.oldSize ≠ (w, h) then _ else st).imgSize = st.imgSize
      rw [if_neg (by simpa using hsz)]
    · rw [if_neg hsz]
      show (if st.oldSize ≠ (w, h) then
        { st with oldSize := (w, h), imgSize := (w, h) } else st).imgSize = (w, h)
      rw [if_pos hsz]

/-! ### Loop equations and membership lemmas for the searches -/

section LoopLemmas

variable (child : Player → List Player → QBot → QTop → ℚ)
variable (childm : Player → List Player → ℚ)
variable (eval1 : ℕ → List Player → ℚ) (det : Player) (ds : List Player)

lemma absMax_cons (m : Move) (rest : List Move) (alpha : QBot) (beta : QTop)
    (acc : QBot) (best : Option Move) :
    absMax child eval1 det ds (m :: rest) alpha beta acc best =
      (if leTB beta (qbotMax alpha (absStepVal child eval1 det ds m alpha beta)) then
        (if qbotLtB acc (absStepVal child eval1 det ds m alpha beta) then
          QBot.val (absStepVal child eval1 det ds m alpha beta) else acc,
         if qbotLtB acc (absStepVal child eval1 det ds m alpha beta) then
          some m else best)
       else absMax child eval1 det ds rest
        (qbotMax alpha (absStepVal child eval1 det ds m alpha beta)) beta
        (if qbotLtB acc (absStepVal child eval1 det ds m alpha beta) then
          QBot.val (absStepVal child eval1 det ds m alpha beta) else acc)
        (if qbotLtB acc (absStepVal child eval1 det ds m alpha beta) then
          some m else best)) := rfl

lemma absMin_cons (m : Move) (rest : List Move) (alpha : QBot) (beta : QTop)
    (acc : QTop) (best : Option Move) :
    absMin child eval1 det ds (m :: rest) alpha beta acc best =
      (if leTB (qtopMin beta (absStepVal child eval1 det ds m alpha beta)) alpha then
        (if qtopLtB (absStepVal child eval1 det ds m alpha beta) acc then
          QTop.val (absStepVal child eval1 det ds m alpha beta) else acc,
         if qtopLtB (absStepVal child eval1 det ds m alpha beta) acc then
          some m else best)
       else absMin child eval1 det ds rest alpha
        (qtopMin beta (absStepVal child eval1 det ds m alpha beta))
        (if qtopLtB (absStepVal child eval1 det ds m alpha beta) acc then
          QTop.val (absStepVal child eval1 det ds m alpha beta) else acc)
        (if qtopLtB (absStepVal child eval1 det ds m alpha beta) acc then
          some m else best)) := rfl

lemma mmMax_cons (m : Move) (rest : List Move) (acc : QBot) (best : Option Move) :
    mmMax childm eval1 det ds (m :: rest) acc best =
      mmMax childm eval1 det ds rest
        (if qbotLtB acc (mmStepVal childm eval1 det ds m) then
          QBot.val (mmStepVal childm eval1 det ds m) else acc)
        (if qbotLtB acc (mmStepVal childm eval1 det ds m) then some m else best) := rfl

lemma mmMin_cons (m : Move) (rest : List Move) (acc : QTop) (best : Option Move) :
    mmMin childm eval1 det ds (m :: rest) acc best =
      mmMin childm eval1 det ds rest
        (if qtopLtB (mmStepVal childm eval1 det ds m) acc then
          QTop.val (mmStepVal childm eval1 det ds m) else acc)
        (if qtopLtB (mmStepVal childm eval1 det ds m) acc then some m else best) := rfl

lemma absMax_best_mem :
    ∀ (l : List Move) (alpha : QBot) (beta : QTop) (acc : QBot) (best : Option Move),
      (absMax child eval1 det ds l alpha beta acc best).2 = best ∨
        ∃ m ∈ l, (absMax child eval1 det ds l alpha beta acc best).2 = some m := by
  intro l
  induction l with
  | nil => intro alpha beta acc best; left; rfl
  | cons m rest ih =>
    intro alpha beta acc best
    rw [absMax_cons]
    by_cases hb : leTB beta (qbotMax alpha (absStepVal child eval1 det ds m alpha beta)) = true
    · rw [if_pos hb]
      by_cases hq : qbotLtB acc (absStepVal child eval1 det ds m alpha beta) = true
      · rw [if_pos hq, if_pos hq]
        exact Or.inr ⟨m, List.mem_cons_self _ _, rfl⟩
      · rw [if_neg hq, if_neg hq]
        exact Or.inl rfl
    · rw [if_neg hb]
      by_cases hq : qbotLtB acc (absStepVal child eval1 det ds m alpha beta) = true
      · rw [if_pos hq, if_pos hq]
        rcases ih (qbotMax alpha (absStepVal child eval1 det ds m alpha beta)) beta
            (QBot.val (absStepVal child eval1 det ds m alpha beta)) (some m) with
          h | ⟨m2, hm2, h2⟩
        · exact Or.inr ⟨m, List.mem_cons_self _ _, h⟩
        · exact Or.inr ⟨m2, List.mem_cons_of_mem _ hm2, h2⟩
      · rw [if_neg hq, if_neg hq]
        rcases ih (qbotMax alpha (absStepVal child eval1 det ds m alpha beta)) beta
            acc best with h | ⟨m2, hm2, h2⟩
        · exact Or.inl h
        · exact Or.inr ⟨m2, List.mem_cons_of_mem _ hm2, h2⟩

lemma absMax_bot_some (m : Move) (rest : List Move) (alpha : QBot) (beta : QTop) :
    ∃ m2, (m2 = m ∨ m2 ∈ rest) ∧
      (absMax child eval1 det ds (m :: rest) alpha beta QBot.bot none).2 = some m2 := by
  rw [absMax_cons]
  have hq : qbotLtB QBot.bot (absStepVal child eval1 det ds m alpha beta) = true := rfl
  by_cases hb : leTB beta (qbotMax alpha (absStepVal child eval1 det ds m alpha beta)) = true
  · rw [if_pos hb, if_pos hq]
    exact ⟨m, Or.inl rfl, rfl⟩
  · rw [if_neg hb, if_pos hq, if_pos hq]
    rcases absMax_best_mem child eval1 det ds rest
        (qbotMax alpha (absStepVal child eval1 det ds m alpha beta)) beta
        (QBot.val (absStepVal child eval1 det ds m alpha beta)) (some m) with
      h | ⟨m2, hm2, h2⟩
    · exact ⟨m, Or.inl rfl, h⟩
    · exact ⟨m2, Or.inr hm2, h2⟩

end LoopLemmas

lemma argmaxGo_mem (score : Move → ℚ) :
    ∀ (l : List Move) (acc : QBot) (best : Option Move),
      argmaxGo score l acc best = best ∨
        ∃ m ∈ l, argmaxGo score l acc best = some m := by
  intro l
  induction l with
  | nil => intro acc best; left; rfl
  | cons m rest ih =>
    intro acc best
    have heq : argmaxGo score (m :: rest) acc best =
        if qbotLtB acc (score m) then
          argmaxGo score rest (QBot.val (score m)) (some m)
        else argmaxGo score rest acc best := rfl
    rw [heq]
    by_cases hq : qbotLtB acc (score m) = true
    · rw [if_pos hq]
      rcases ih (QBot.val (score m)) (some m) with h | ⟨m2, hm2, h2⟩
      · exact Or.inr ⟨m, List.mem_cons_self _ _, h⟩
      · exact Or.inr ⟨m2, List.mem_cons_of_mem _ hm2, h2⟩
    · rw [if_neg hq]
      rcases ih acc best with h | ⟨m2, hm2, h2⟩
      · exact Or.inl h
      · exact Or.inr ⟨m2, List.mem_cons_of_mem _ hm2, h2⟩

lemma argmaxGo_bot_some (score : Move → ℚ) (m : Move) (rest : List Move) :
    ∃ m2, (m2 = m ∨ m2 ∈ rest) ∧
      argmaxGo score (m :: rest) QBot.bot none = some m2 := by
  have hq : qbotLtB QBot.bot (score m) = true := rfl
  have heq : argmaxGo score (m :: rest) QBot.bot none =
      argmaxGo score rest (QBot.val (score m)) (some m) := by
    show (if qbotLtB QBot.bot (score m) then
        argmaxGo score rest (QBot.val (score m)) (some m)
      else argmaxGo score rest QBot.bot none) =
      argmaxGo score rest (QBot.val (score m)) (some m)
    rw [if_pos hq]
  rw [heq]
  rcases argmaxGo_mem score rest (QBot.val (score m)) (some m) with h | ⟨m2, hm2, h2⟩
  · exact ⟨m, Or.inl rfl, h⟩
  · exact ⟨m2, Or.inr hm2, h2⟩

/-! ### Claim C3 -/

/-- Claim C3 (fallback guarantee).  Whenever `get_valid_moves` returns a
non-empty candidate list, both the heuristic strategy's `play_move` and the
search strategy's `play_move` return some move from that list — never a
no-move result — independently of what the scoring or search core computes
(the first candidate always beats the minus-infinity initial best, so the
selection is never empty and the random fallback is unreachable). -/
theorem claim_C3_fallback :
    ∀ (b : Board) (pick : List Move → Move) (turn agent : ℕ) (det : Player)
      (ds : List Player) (hist : List (ℕ × Mode)),
      (get_valid_moves_h b det ds ≠ [] →
        ∃ m ∈ get_valid_moves_h b det ds,
          (heuristic_play_move b pick turn agent det ds hist).2.2 = some m) ∧
      (get_valid_moves_s b det ds ≠ [] →
        ∃ m ∈ get_valid_moves_s b det ds,
          (detectives_play_move b pick turn agent det ds hist).2.2 = some m) := by
  intro b pick turn agent det ds hist
  constructor
  · intro hne
    obtain ⟨m, rest, hvm⟩ : ∃ m rest, get_valid_moves_h b det ds = m :: rest := by
      cases h : get_valid_moves_h b det ds with
      | nil => exact absurd h hne
      | cons m rest => exact ⟨m, rest, rfl⟩
    obtain ⟨m2, hm2, harg⟩ := argmaxGo_bot_some
      (fun mv => evaluate_move b mv.1 ds
        (compute_possible b (if (agent + 1) % 5 = 0 then turn + 1 else turn) hist))
      m rest
    refine ⟨m2, ?_, ?_⟩
    · rw [hvm]
      rcases hm2 with h | h
      · exact h ▸ List.mem_cons_self _ _
      · exact List.mem_cons_of_mem _ h
    · simp only [heuristic_play_move, hvm, List.isEmpty_cons, if_false,
        Bool.false_eq_true]
      rw [harg]
  · intro hne
    obtain ⟨m, rest, hvm⟩ : ∃ m rest, get_valid_moves_s b det ds = m :: rest := by
      cases h : get_valid_moves_s b det ds with
      | nil => exact absurd h hne
      | cons m rest => exact ⟨m, rest, rfl⟩
    obtain ⟨m2, hm2, habs⟩ := absMax_bot_some
      (fun nd nds a bt =>
        (alpha_beta_search b
          (compute_possible b (if (agent + 1) % 5 = 0 then turn + 1 else turn) hist)
          hist 1 nd nds (m :: rest) a bt false).1)
      (fun p nds => evaluate_position b p nds
        (compute_possible b (if (agent + 1) % 5 = 0 then turn + 1 else turn) hist)
        hist)
      det ds m rest QBot.bot QTop.top
    refine ⟨m2, ?_, ?_⟩
    · rw [hvm]
      rcases hm2 with h | h
      · exact h ▸ List.mem_cons_self _ _
      · exact List.mem_cons_of_mem _ h
    · simp only [detectives_play_move, hvm, List.isEmpty_cons, if_false,
        Bool.false_eq_true]
      rw [show (alpha_beta_search b
          (compute_possible b (if (agent + 1) % 5 = 0 then turn + 1 else turn) hist)
          hist 2 det ds (m :: rest) QBot.bot QTop.top true).2 =
          (absMax (fun nd nds a bt =>
            (alpha_beta_search b
              (compute_possible b (if (agent + 1) % 5 = 0 then turn + 1 else turn) hist)
              hist 1 nd nds (m :: rest) a bt false).1)
            (fun p nds => evaluate_position b p nds
              (compute_possible b (if (agent + 1) % 5 = 0 then turn + 1 else turn) hist)
              hist) det ds (m :: rest) QBot.bot QTop.top QBot.bot none).2 from rfl]
      rw [habs]

/-- Witness for claim C3: detective D on the chain board with one taxi
ticket; both strategies return the unique candidate move (2, taxi). -/
theorem claim_C3_witness :
    (get_valid_moves_h chainBoard detD [detD] ≠ [] ∧
      ∃ m ∈ get_valid_moves_h chainBoard detD [detD],
        (heuristic_play_move chainBoard pickHead 0 0 detD [detD] []).2.2 = some m) ∧
    (get_valid_moves_s chainBoard detD [detD] ≠ [] ∧
      ∃ m ∈ get_valid_moves_s chainBoard detD [detD],
        (detectives_play_move chainBoard pickHead 0 0 detD [detD] []).2.2 = some m) :=
  ⟨⟨by decide, (claim_C3_fallback chainBoard pickHead 0 0 detD [detD] []).1 (by decide)⟩,
   ⟨by decide, (claim_C3_fallback chainBoard pickHead 0 0 detD [detD] []).2 (by decide)⟩⟩

/-! ### Claim C8, amended soundness -/

lemma reachWithin_self (b : Board) :
    ∀ (d : ℕ) (p : List Mode) (S : Finset ℕ), S ⊆ reachWithin b d p S := by
  intro d
  induction d with
  | zero => intro p S; exact subset_rfl
  | succ d ih =>
    intro p S
    cases p with
    | nil => exact subset_rfl
    | cons t rest =>
      show S ⊆ S ∪ reachWithin b d rest (expandStep b t S)
      exact Finset.subset_union_left

lemma reachWithin_mono (b : Board) :
    ∀ (d : ℕ) (p : List Mode) {S T : Finset ℕ},
      S ⊆ T → reachWithin b d p S ⊆ reachWithin b d p T := by
  intro d
  induction d with
  | zero => intro p S T h; exact h
  | succ d ih =>
    intro p S T h
    cases p with
    | nil => exact h
    | cons t rest =>
      show S ∪ reachWithin b d rest (expandStep b t S) ⊆
        T ∪ reachWithin b d rest (expandStep b t T)
      refine Finset.union_subset_union h (ih rest ?_)
      exact Finset.biUnion_subset_biUnion_of_subset_left _ h

/-- Claim C8, amended as the counterexample forces: the visited set computed
by `explore` is CONTAINED IN the initial visited set united with the exact
chronological propagation (every station it adds is genuinely reachable from
the current station by following a prefix of the mode sequence in order, for
at most min(depth, length) steps); the superset direction of the original
claim fails. -/
theorem claim_C8_sound :
    ∀ (b : Board) (d : ℕ) (path : List Mode) (cur : ℕ) (v : Finset ℕ),
      explore b d cur path v ⊆ v ∪ reachWithin b d path {cur} := by
  intro b d
  induction d with
  | zero => intro path cur v; exact Finset.subset_union_left
  | succ d ih =>
    intro path cur v
    cases path with
    | nil => exact Finset.subset_union_left
    | cons t rest =>
      show exploreFold (fun nb vis => explore b d nb rest vis) (nbrs b cur t) v ⊆
        v ∪ ({cur} ∪ reachWithin b d rest (expandStep b t {cur}))
      have hE : ∀ nb ∈ nbrs b cur t, nb ∈ expandStep b t ({cur} : Finset ℕ) := by
        intro nb hnb
        exact Finset.mem_biUnion.mpr
          ⟨cur, Finset.mem_singleton_self cur, List.mem_toFinset.mpr hnb⟩
      have main : ∀ (l : List ℕ) (vis : Finset ℕ),
          (∀ nb ∈ l, nb ∈ expandStep b t ({cur} : Finset ℕ)) →
          vis ⊆ v ∪ ({cur} ∪ reachWithin b d rest (expandStep b t {cur})) →
          exploreFold (fun nb vis => explore b d nb rest vis) l vis ⊆
            v ∪ ({cur} ∪ reachWithin b d rest (expandStep b t {cur})) := by
        intro l
        induction l with
        | nil => intro vis _ hvis; exact hvis
        | cons nb l2 ihl =>
          intro vis hl hvis
          show exploreFold (fun nb vis => explore b d nb rest vis) l2
            (if nb ∈ vis then vis else explore b d nb rest (insert nb vis)) ⊆ _
          refine ihl _ (fun x hx => hl x (List.mem_cons_of_mem _ hx)) ?_
          by_cases hmem : nb ∈ vis
          · rw [if_pos hmem]; exact hvis
          · rw [if_neg hmem]
            have hnbE : nb ∈ expandStep b t ({cur} : Finset ℕ) :=
              hl nb (List.mem_cons_self _ _)
            have h2 : insert nb vis ⊆
                v ∪ ({cur} ∪ reachWithin b d rest (expandStep b t {cur})) := by
              refine Finset.insert_subset ?_ hvis
              exact Finset.mem_union_right _ (Finset.mem_union_right _
                (reachWithin_self b d rest _ hnbE))
            have h3 : reachWithin b d rest ({nb} : Finset ℕ) ⊆
                reachWithin b d rest (expandStep b t {cur}) :=
              reachWithin_mono b d rest (Finset.singleton_subset_iff.mpr hnbE)
            intro x hx
            rcases Finset.mem_union.mp (ih rest nb (insert nb vis) hx) with hx1 | hx2
            · exact h2 hx1
            · exact Finset.mem_union_right _ (Finset.mem_union_right _ (h3 hx2))
      exact main (nbrs b cur t) v hE Finset.subset_union_left

/-! ### Claim C6 -/

/-- Claim C6 (probability normalization).  For every non-empty candidate set
on which every unnormalised `calculate_probability` score (read as an exact
rational; the strictly-positive hypothesis excludes the infinite-distance
degenerate case) is strictly positive, the normalised probabilities computed
by the `print_node_probabilities` step sum to exactly 1, and for any two
candidate locations the normalised probability of one exceeds the other's
exactly when its raw score does. -/
theorem claim_C6_normalization :
    ∀ (b : Board) (P : Finset ℕ) (ds : List Player) (hist : List (ℕ × Mode)),
      P.Nonempty → (∀ n ∈ P, 0 < raw_score b P ds hist n) →
      (∑ n ∈ P, normalized_probability b P ds hist n) = 1 ∧
      (∀ a ∈ P, ∀ c ∈ P,
        (normalized_probability b P ds hist a > normalized_probability b P ds hist c ↔
          raw_score b P ds hist a > raw_score b P ds hist c)) := by
  intro b P ds hist hne hpos
  have hT : 0 < total_raw b P ds hist := Finset.sum_pos hpos hne
  have hT0 : total_raw b P ds hist ≠ 0 := ne_of_gt hT
  constructor
  · have hrw : (∑ n ∈ P, normalized_probability b P ds hist n) =
        ∑ n ∈ P, raw_score b P ds hist n / total_raw b P ds hist :=
      Finset.sum_congr rfl (fun n _ => by rw [normalized_probability, if_pos hT])
    rw [hrw, ← Finset.sum_div]
    exact div_self hT0
  · intro a _ c _
    rw [normalized_probability, normalized_probability, if_pos hT, if_pos hT]
    exact div_lt_div_iff_of_pos_right hT

/-- Witness for claim C6: candidate set with stations 1 and 2 of the chain
board, one detective at station 1, empty history; both raw scores are
positive and the normalised probabilities sum to 1. -/
theorem claim_C6_witness :
    (∀ n ∈ ({1, 2} : Finset ℕ), 0 < raw_score chainBoard {1, 2} [probeDet] [] n) ∧
      (∑ n ∈ ({1, 2} : Finset ℕ),
        normalized_probability chainBoard {1, 2} [probeDet] [] n) = 1 :=
  ⟨by with_unfolding_all decide,
    (claim_C6_normalization chainBoard {1, 2} [probeDet] [] ⟨1, by decide⟩
      (by with_unfolding_all decide)).1⟩

/-! ### Claim C2, amended refinement bound -/

lemma qtopLtB_val {e a : ℚ} : qtopLtB e (QTop.val a) = true ↔ e < a := by
  simp [qtopLtB]

lemma qbotLtB_val {a e : ℚ} : qbotLtB (QBot.val a) e = true ↔ a < e := by
  simp [qbotLtB]

lemma qtopLe_refl : ∀ x : QTop, qtopLe x x
  | .top => trivial
  | .val _ => le_refl _

lemma qtopLe_trans : ∀ {x y z : QTop}, qtopLe x y → qtopLe y z → qtopLe x z := by
  intro x y z h1 h2
  cases x with
  | top =>
    cases y with
    | top => exact h2
    | val a => exact h1.elim
  | val a =>
    cases z with
    | top => trivial
    | val c =>
      cases y with
      | top => exact h2.elim
      | val d => exact le_trans (h1 : a ≤ d) (h2 : d ≤ c)

lemma qtopUpd_mono (e : ℚ) : ∀ {x y : QTop}, qtopLe x y →
    qtopLe (if qtopLtB e x then QTop.val e else x)
      (if qtopLtB e y then QTop.val e else y) := by
  intro x y h
  cases x with
  | top =>
    cases y with
    | top => exact qtopLe_refl _
    | val a => exact h.elim
  | val a =>
    cases y with
    | top =>
      rw [if_pos (show qtopLtB e QTop.top = true from rfl)]
      by_cases he : e < a
      · rw [if_pos (qtopLtB_val.mpr he)]
        exact le_refl _
      · rw [if_neg (fun hc => he (qtopLtB_val.mp hc))]
        exact le_of_not_lt he
    | val a2 =>
      have ha : a ≤ a2 := h
      by_cases he : e < a
      · rw [if_pos (qtopLtB_val.mpr he)]
        by_cases he2 : e < a2
        · rw [if_pos (qtopLtB_val.mpr he2)]
          exact le_refl _
        · rw [if_neg (fun hc => he2 (qtopLtB_val.mp hc))]
          exact le_of_lt (lt_of_lt_of_le he ha)
      · rw [if_neg (fun hc => he (qtopLtB_val.mp hc))]
        by_cases he2 : e < a2
        · rw [if_pos (qtopLtB_val.mpr he2)]
          exact le_of_not_lt he
        · rw [if_neg (fun hc => he2 (qtopLtB_val.mp hc))]
          exact ha

lemma qtopUpd_le_self (e : ℚ) : ∀ x : QTop,
    qtopLe (if qtopLtB e x then QTop.val e else x) x := by
  intro x
  cases x with
  | top => rw [if_pos (show qtopLtB e QTop.top = true from rfl)]; trivial
  | val a =>
    by_cases he : e < a
    · rw [if_pos (qtopLtB_val.mpr he)]
      exact le_of_lt he
    · rw [if_neg (fun hc => he (qtopLtB_val.mp hc))]
      exact le_refl _

lemma qtopLe_toQ : ∀ {x y : QTop}, qtopLe x y → y ≠ QTop.top →
    qtopToQ x ≤ qtopToQ y := by
  intro x y h hy
  cases y with
  | top => exact absurd rfl hy
  | val a2 =>
    cases x with
    | top => exact h.elim
    | val a => exact h

lemma qbotLe_trans : ∀ {x y z : QBot}, qbotLe x y → qbotLe y z → qbotLe x z := by
  intro x y z h1 h2
  cases x with
  | bot => trivial
  | val a =>
    cases y with
    | bot => exact h1.elim
    | val d =>
      cases z with
      | bot => exact h2.elim
      | val c => exact le_trans (h1 : a ≤ d) (h2 : d ≤ c)

lemma qbotUpd_mono {eM eA : ℚ} (he : eM ≤ eA) : ∀ {x y : QBot}, qbotLe x y →
    qbotLe (if qbotLtB x eM then QBot.val eM else x)
      (if qbotLtB y eA then QBot.val eA else y) := by
  intro x y h
  cases x with
  | bot =>
    rw [if_pos (show qbotLtB QBot.bot eM = true from rfl)]
    cases y with
    | bot => rw [if_pos (show qbotLtB QBot.bot eA = true from rfl)]; exact he
    | val a2 =>
      by_cases he2 : a2 < eA
      · rw [if_pos (qbotLtB_val.mpr he2)]
        exact he
      · rw [if_neg (fun hc => he2 (qbotLtB_val.mp hc))]
        exact le_trans he (le_of_not_lt he2)
  | val a =>
    cases y with
    | bot => exact h.elim
    | val a2 =>
      have ha : a ≤ a2 := h
      by_cases he1 : a < eM
      · rw [if_pos (qbotLtB_val.mpr he1)]
        by_cases he2 : a2 < eA
        · rw [if_pos (qbotLtB_val.mpr he2)]
          exact he
        · rw [if_neg (fun hc => he2 (qbotLtB_val.mp hc))]
          exact le_trans he (le_of_not_lt he2)
      · rw [if_neg (fun hc => he1 (qbotLtB_val.mp hc))]
        by_cases he2 : a2 < eA
        · rw [if_pos (qbotLtB_val.mpr he2)]
          exact le_of_lt (lt_of_le_of_lt ha he2)
        · rw [if_neg (fun hc => he2 (qbotLtB_val.mp hc))]
          exact ha

lemma qbotLe_toQ : ∀ {x y : QBot}, qbotLe x y → x ≠ QBot.bot →
    qbotToQ x ≤ qbotToQ y := by
  intro x y h hx
  cases x with
  | bot => exact absurd rfl hx
  | val a =>
    cases y with
    | bot => exact h.elim
    | val a2 => exact h

section RefinementLemmas

variable (child : Player → List Player → QBot → QTop → ℚ)
variable (childm : Player → List Player → ℚ)
variable (eval1 : ℕ → List Player → ℚ) (det : Player) (ds : List Player)

lemma mmMin_le_acc :
    ∀ (l : List Move) (acc : QTop) (best : Option Move),
      qtopLe (mmMin childm eval1 det ds l acc best).1 acc := by
  intro l
  induction l with
  | nil => intro acc best; exact qtopLe_refl acc
  | cons m rest ih =>
    intro acc best
    rw [mmMin_cons]
    exact qtopLe_trans (ih _ _) (qtopUpd_le_self _ acc)

lemma absMin_ge_mmMin (hch : ∀ nd nds a bt, child nd nds a bt = childm nd nds) :
    ∀ (l : List Move) (alpha : QBot) (beta accA accM : QTop)
      (bestA bestM : Option Move),
      qtopLe accM accA →
      qtopLe (mmMin childm eval1 det ds l accM bestM).1
        (absMin child eval1 det ds l alpha beta accA bestA).1 := by
  intro l
  induction l with
  | nil => intro alpha beta accA accM bestA bestM h; exact h
  | cons m rest ih =>
    intro alpha beta accA accM bestA bestM h
    have hstep : absStepVal child eval1 det ds m alpha beta =
        mmStepVal childm eval1 det ds m := by
      rw [absStepVal, mmStepVal, hch]
    rw [mmMin_cons, absMin_cons, hstep]
    by_cases hb : leTB (qtopMin beta (mmStepVal childm eval1 det ds m)) alpha = true
    · rw [if_pos hb]
      exact qtopLe_trans (mmMin_le_acc childm eval1 det ds rest _ _)
        (qtopUpd_mono (mmStepVal childm eval1 det ds m) h)
    · rw [if_neg hb]
      exact ih alpha (qtopMin beta (mmStepVal childm eval1 det ds m)) _ _ _ _
        (qtopUpd_mono (mmStepVal childm eval1 det ds m) h)

lemma absMin_val_ne_top :
    ∀ (l : List Move) (alpha : QBot) (beta : QTop) (q : ℚ) (best : Option Move),
      (absMin child eval1 det ds l alpha beta (QTop.val q) best).1 ≠ QTop.top := by
  intro l
  induction l with
  | nil => intro alpha beta q best; simp [absMin]
  | cons m rest ih =>
    intro alpha beta q best
    rw [absMin_cons]
    by_cases hb : leTB
        (qtopMin beta (absStepVal child eval1 det ds m alpha beta)) alpha = true
    · rw [if_pos hb]
      by_cases hq : qtopLtB (absStepVal child eval1 det ds m alpha beta)
          (QTop.val q) = true
      · rw [if_pos hq]; simp
      · rw [if_neg hq]; simp
    · rw [if_neg hb]
      by_cases hq : qtopLtB (absStepVal child eval1 det ds m alpha beta)
          (QTop.val q) = true
      · rw [if_pos hq, if_pos hq]; exact ih _ _ _ _
      · rw [if_neg hq, if_neg hq]; exact ih _ _ _ _

lemma absMin_start_ne_top (m : Move) (rest : List Move) (alpha : QBot)
    (beta : QTop) (best : Option Move) :
    (absMin child eval1 det ds (m :: rest) alpha beta QTop.top best).1 ≠ QTop.top := by
  rw [absMin_cons]
  have hq : qtopLtB (absStepVal child eval1 det ds m alpha beta) QTop.top = true := rfl
  rw [if_pos hq, if_pos hq]
  by_cases hb : leTB
      (qtopMin beta (absStepVal child eval1 det ds m alpha beta)) alpha = true
  · rw [if_pos hb]; simp
  · rw [if_neg hb]; exact absMin_val_ne_top child eval1 det ds rest _ _ _ _

lemma absMax_ge_mmMax
    (hch2 : ∀ nd nds a bt, childm nd nds ≤ child nd nds a bt) :
    ∀ (l : List Move) (alpha accA accM : QBot) (bestA bestM : Option Move),
      qbotLe accM accA →
      qbotLe (mmMax childm eval1 det ds l accM bestM).1
        (absMax child eval1 det ds l alpha QTop.top accA bestA).1 := by
  intro l
  induction l with
  | nil => intro alpha accA accM bestA bestM h; exact h
  | cons m rest ih =>
    intro alpha accA accM bestA bestM h
    rw [mmMax_cons, absMax_cons]
    have hnb : ¬(leTB QTop.top
        (qbotMax alpha (absStepVal child eval1 det ds m alpha QTop.top)) = true) := by
      simp [leTB]
    rw [if_neg hnb]
    have hestep : mmStepVal childm eval1 det ds m ≤
        absStepVal child eval1 det ds m alpha QTop.top := by
      rw [absStepVal, mmStepVal]
      have hc := hch2 (childState det ds m).1 (childState det ds m).2 alpha QTop.top
      have h3 : (3 : ℚ) / 10 * childm (childState det ds m).1 (childState det ds m).2 ≤
          3 / 10 * child (childState det ds m).1 (childState det ds m).2 alpha QTop.top :=
        mul_le_mul_of_nonneg_left hc (by norm_num)
      linarith
    exact ih _ _ _ _ _ (qbotUpd_mono hestep h)

lemma mmMax_val_ne_bot :
    ∀ (l : List Move) (q : ℚ) (best : Option Move),
      (mmMax childm eval1 det ds l (QBot.val q) best).1 ≠ QBot.bot := by
  intro l
  induction l with
  | nil => intro q best; simp [mmMax]
  | cons m rest ih =>
    intro q best
    rw [mmMax_cons]
    by_cases hq : qbotLtB (QBot.val q) (mmStepVal childm eval1 det ds m) = true
    · rw [if_pos hq, if_pos hq]; exact ih _ _
    · rw [if_neg hq, if_neg hq]; exact ih _ _

lemma mmMax_start_ne_bot (m : Move) (rest : List Move) (best : Option Move) :
    (mmMax childm eval1 det ds (m :: rest) QBot.bot best).1 ≠ QBot.bot := by
  rw [mmMax_cons]
  have hq : qbotLtB QBot.bot (mmStepVal childm eval1 det ds m) = true := rfl
  rw [if_pos hq, if_pos hq]
  exact mmMax_val_ne_bot childm eval1 det ds rest _ _

end RefinementLemmas

lemma ab1_ge_mm1 (b : Board) (P : Finset ℕ) (hist : List (ℕ × Mode)) (m : Move)
    (rest : List Move) :
    ∀ (nd : Player) (nds : List Player) (a : QBot) (bt : QTop),
      (minimax_exhaustive b P hist 1 nd nds (m :: rest) false).1 ≤
        (alpha_beta_search b P hist 1 nd nds (m :: rest) a bt false).1 := by
  intro nd nds a bt
  show qtopToQ (mmMin
      (fun nd2 nds2 => (minimax_exhaustive b P hist 0 nd2 nds2 (m :: rest) true).1)
      (fun p nds2 => evaluate_position b p nds2 P hist) nd nds (m :: rest)
      QTop.top none).1 ≤
    qtopToQ (absMin
      (fun nd2 nds2 a2 bt2 =>
        (alpha_beta_search b P hist 0 nd2 nds2 (m :: rest) a2 bt2 true).1)
      (fun p nds2 => evaluate_position b p nds2 P hist) nd nds (m :: rest)
      a bt QTop.top none).1
  apply qtopLe_toQ
  · exact absMin_ge_mmMin
      (fun nd2 nds2 a2 bt2 =>
        (alpha_beta_search b P hist 0 nd2 nds2 (m :: rest) a2 bt2 true).1)
      (fun nd2 nds2 => (minimax_exhaustive b P hist 0 nd2 nds2 (m :: rest) true).1)
      (fun p nds2 => evaluate_position b p nds2 P hist) nd nds
      (fun _ _ _ _ => rfl) (m :: rest) a bt QTop.top QTop.top none none
      (qtopLe_refl _)
  · exact absMin_start_ne_top
      (fun nd2 nds2 a2 bt2 =>
        (alpha_beta_search b P hist 0 nd2 nds2 (m :: rest) a2 bt2 true).1)
      (fun p nds2 => evaluate_position b p nds2 P hist) nd nds m rest a bt none

/-- Claim C2, amended as the counterexample forces: for every board,
detective, possible-location set, history and NON-EMPTY candidate-move list,
the depth-2 alpha-beta search invoked with alpha minus infinity, beta plus
infinity, maximizing returns a combined score that is greater than or equal
to the exhaustive (unpruned) minimax value of the identical
`0.7 * immediate + 0.3 * future` scoring recursion over the same move list
(equality — the original claim — fails in general, because a beta cutoff
inside a minimizing child compares the child's running minimum against the
parent-scale alpha and so can truncate the child's minimum too early). -/
theorem claim_C2_score_ge_minimax :
    ∀ (b : Board) (P : Finset ℕ) (hist : List (ℕ × Mode)) (det : Player)
      (ds : List Player) (moves : List Move), moves ≠ [] →
      (minimax_exhaustive b P hist 2 det ds moves true).1 ≤
        (alpha_beta_search b P hist 2 det ds moves QBot.bot QTop.top true).1 := by
  intro b P hist det ds moves hne
  obtain ⟨m, rest, rfl⟩ : ∃ m rest, moves = m :: rest := by
    cases h : moves with
    | nil => exact absurd h hne
    | cons m rest => exact ⟨m, rest, rfl⟩
  show qbotToQ (mmMax
      (fun nd nds => (minimax_exhaustive b P hist 1 nd nds (m :: rest) false).1)
      (fun p nds => evaluate_position b p nds P hist) det ds (m :: rest)
      QBot.bot none).1 ≤
    qbotToQ (absMax
      (fun nd nds a2 bt2 =>
        (alpha_beta_search b P hist 1 nd nds (m :: rest) a2 bt2 false).1)
      (fun p nds => evaluate_position b p nds P hist) det ds (m :: rest)
      QBot.bot QTop.top QBot.bot none).1
  apply qbotLe_toQ
  · exact absMax_ge_mmMax
      (fun nd nds a2 bt2 =>
        (alpha_beta_search b P hist 1 nd nds (m :: rest) a2 bt2 false).1)
      (fun nd nds => (minimax_exhaustive b P hist 1 nd nds (m :: rest) false).1)
      (fun p nds => evaluate_position b p nds P hist) det ds
      (fun nd nds a2 bt2 => ab1_ge_mm1 b P hist m rest nd nds a2 bt2)
      (m :: rest) QBot.bot QBot.bot QBot.bot none none trivial
  · exact mmMax_start_ne_bot
      (fun nd nds => (minimax_exhaustive b P hist 1 nd nds (m :: rest) false).1)
      (fun p nds => evaluate_position b p nds P hist) det ds m rest none

/-- Witness for the amended claim C2 at a concrete input: one candidate move
on the chain board. -/
theorem claim_C2_witness :
    ([((2 : ℕ), taxiM)] ≠ ([] : List Move)) ∧
      (minimax_exhaustive chainBoard {1} [] 2 detD [detD] [(2, taxiM)] true).1 ≤
        (alpha_beta_search chainBoard {1} [] 2 detD [detD] [(2, taxiM)]
          QBot.bot QTop.top true).1 :=
  ⟨by decide, claim_C2_score_ge_minimax chainBoard {1} [] detD [detD]
    [(2, taxiM)] (by decide)⟩
